import Mathlib

/-!
Shallow embedding of `predict.py` (UCI census income tutorial script).

The script's data lives in pandas DataFrames whose cells are either strings
(categorical columns, parsed with a leading space because the separator is
the regex "\s*,") or integers (numeric columns).  A DataFrame is modelled as
an association list from column name to the list of cell values, in column
order; each cell is a `Value`.

The pieces embedded here, in source order:
  * the `meta` dictionary built at lines 159-167 (`buildMeta`);
  * the custom `EncodeCategorical` transformer (lines 205-237), whose
    per-column encoders are sklearn `LabelEncoder`s: `classes_` is the
    sorted list of distinct fit-time values and `transform` maps a value to
    its index among the classes, erroring on unseen values;
  * the custom `ImputeCategorical` transformer (lines 242-272), which wraps
    sklearn `Imputer(missing_values=0, strategy='most_frequent')`: per
    designated column the fitted statistic is the most frequent value among
    the non-sentinel (nonzero) entries, smallest value winning ties, and
    `transform` replaces every sentinel entry by that statistic; a column
    that is entirely sentinel at fit time has no statistic and makes
    `transform` fail (sklearn drops the column, so the assignment back into
    the frame raises); strings cannot be coerced to the numeric array the
    imputer works on, so they also make fit/transform fail;
  * the `census` sklearn Pipeline (lines 324-331): encoder, then imputer,
    then logistic-regression classifier (`censusFit` / `censusPredict`);
  * pickling of the fitted pipeline (`dump_model` / `load_model`,
    lines 277-286), modelled as an explicit injective token codec;
  * the target label encoder and the trailing-period stripping of test
    targets (lines 321 and 334);
  * the interactive `predict` command-line routine (lines 289-310).

Python exceptions are modelled by `Option`: a run that raises returns
`none`.  Fallible operations (missing columns, unseen categories, string
cells reaching the numeric imputer) therefore produce `Option` results.
-/

/-- A DataFrame cell: either an integer (numeric columns, and columns after
label encoding) or a string (raw categorical columns). -/
inductive Value where
  | int : Int → Value
  | str : String → Value
deriving DecidableEq

/-- A DataFrame: association list from column name to that column's cells,
kept in column order. -/
abbrev Table := List (String × List Value)

/-- Column selection `data[c]`; `none` models the `KeyError` raised when the
column is absent. -/
def lookupCol : Table → String → Option (List Value)
  | [], _ => none
  | (c', vs) :: rest, c => if c' = c then some vs else lookupCol rest c

/-- Whether the table has a column named `c`. -/
def hasCol : Table → String → Bool
  | [], _ => false
  | (c', _) :: rest, c => c' = c || hasCol rest c

/-- Column assignment `output[c] = ws`: replaces the column in place when it
exists, otherwise appends a new column (pandas semantics). -/
def setCol (data : Table) (c : String) (ws : List Value) : Table :=
  if hasCol data c then
    data.map (fun p => if p.1 = c then (c, ws) else p)
  else
    data ++ [(c, ws)]

/-- Apply a list of column assignments in order. -/
def applyUpdates : Table → List (String × List Value) → Table
  | data, [] => data
  | data, (c, ws) :: rest => applyUpdates (setCol data c ws) rest

/-- The column names of a table, in order (`data.columns`). -/
def colNames (data : Table) : List String := data.map Prod.fst

/-- Occurrence count of a value in a list. -/
def cnt (v : Value) : List Value → Nat
  | [] => 0
  | u :: us => (if u = v then 1 else 0) + cnt v us

/-- Boolean membership of a value in a list. -/
def containsV (l : List Value) (v : Value) : Bool :=
  match l with
  | [] => false
  | u :: us => u = v || containsV us v

/-- Whether every cell of a column is an integer (the numeric dtype the
sklearn imputer requires). -/
def allInt (vs : List Value) : Bool :=
  vs.all fun v => match v with
    | .int _ => true
    | .str _ => false

/-- Lexicographic comparison of strings by code point (the ordering of
`String.lt`, written out over the character lists so it computes in the
kernel). -/
def strLtB : List Char → List Char → Bool
  | [], [] => false
  | [], _ :: _ => true
  | _ :: _, [] => false
  | a :: as, b :: bs => a.toNat < b.toNat || (a = b && strLtB as bs)

/-- Python 2 / numpy object ordering on mixed cells: numbers sort before
strings, numbers by value, strings lexicographically. -/
def Value.leB : Value → Value → Bool
  | .int a, .int b => a ≤ b
  | .int _, .str _ => true
  | .str _, .int _ => false
  | .str a, .str b => strLtB a.data b.data || a == b

/-- Auxiliary scan for `uniqueInOrder`: keep each value on its first
appearance, tracking the values already seen. -/
def uniqueAux (seen : List Value) : List Value → List Value
  | [] => []
  | v :: vs => if v ∈ seen then uniqueAux seen vs else v :: uniqueAux (v :: seen) vs

/-- Distinct values of a list in order of first appearance
(`pandas.Series.unique`). -/
def uniqueInOrder (l : List Value) : List Value := uniqueAux [] l

/-- Whether a column has pandas dtype `object`, i.e. holds strings. -/
def colIsObject (vs : List Value) : Bool :=
  vs.any fun v => match v with
    | .str _ => true
    | .int _ => false

/-! ### The metadata dictionary (predict.py lines 159-167) -/

/-- The `meta` dictionary written to `data/meta.json`. -/
structure MetaData where
  target_names : List Value
  feature_names : List String
  categorical_features : List (String × List Value)
deriving DecidableEq

/-- Build `meta` from the training table: `target_names` is
`list(data.income.unique())`, `feature_names` is `list(data.columns)`, and
`categorical_features` maps every object-dtype column to its unique values.
`none` models the attribute error raised when the table has no `income`
column. -/
def buildMeta (data : Table) : Option MetaData :=
  match lookupCol data "income" with
  | none => none
  | some incomeVals =>
    some
      { target_names := uniqueInOrder incomeVals
        feature_names := colNames data
        categorical_features :=
          (data.filter fun p => colIsObject p.2).map
            fun p => (p.1, uniqueInOrder p.2) }

/-! ### LabelEncoder (sklearn), used per column by EncodeCategorical -/

/-- `LabelEncoder.fit`: `classes_` is the sorted list of distinct values. -/
def labelFit (vs : List Value) : List Value :=
  (vs.dedup).insertionSort fun a b => Value.leB a b

/-- Index of a value in the class list (its integer code). -/
def idxOf (classes : List Value) (v : Value) : Nat :=
  match classes with
  | [] => 0
  | c :: rest => if c = v then 0 else idxOf rest v + 1

/-- `LabelEncoder.transform` on one column: each value becomes its code;
a value absent from `classes_` raises (`none`). -/
def transformColumn (classes : List Value) : List Value → Option (List Value)
  | [] => some []
  | v :: vs =>
    if v ∈ classes then
      match transformColumn classes vs with
      | none => none
      | some rest => some (Value.int (idxOf classes v) :: rest)
    else none

/-! ### EncodeCategorical (predict.py lines 205-237) -/

/-- Fitted state of `EncodeCategorical`: the resolved column list and one
fitted label encoder (its class list) per column, in column order. -/
structure EncodeCategorical where
  columns : List String
  encoders : List (String × List Value)
deriving DecidableEq

/-- The dictionary comprehension in `EncodeCategorical.fit`: one fitted
label encoder per named column; a missing column raises. -/
def fitEncoders : List String → Table → Option (List (String × List Value))
  | [], _ => some []
  | c :: rest, data =>
    match lookupCol data c with
    | none => none
    | some vs =>
      match fitEncoders rest data with
      | none => none
      | some tail => some ((c, labelFit vs) :: tail)

/-- `EncodeCategorical.fit(data, target)`: resolves `columns=None` to all
columns of the frame and fits one encoder per column.  The `target`
argument is accepted and ignored, exactly as in the source. -/
def encodeFit (columns : Option (List String)) (data : Table)
    (_target : Option (List Int)) : Option EncodeCategorical :=
  match fitEncoders (columns.getD (colNames data)) data with
  | none => none
  | some es => some ⟨columns.getD (colNames data), es⟩

/-- The loop body of `EncodeCategorical.transform`: for each fitted column,
the codes computed from the input frame's column. -/
def encodeUpdates : List (String × List Value) → Table → Option (List (String × List Value))
  | [], _ => some []
  | (c, classes) :: rest, data =>
    match lookupCol data c with
    | none => none
    | some vs =>
      match transformColumn classes vs with
      | none => none
      | some ws =>
        match encodeUpdates rest data with
        | none => none
        | some tail => some ((c, ws) :: tail)

/-- `EncodeCategorical.transform`: copies the frame and overwrites each
fitted column with its codes; any unseen value raises. -/
def encodeTransform (enc : EncodeCategorical) (data : Table) : Option Table :=
  match encodeUpdates enc.encoders data with
  | none => none
  | some us => some (applyUpdates data us)

/-! ### ImputeCategorical (predict.py lines 242-272) -/

/-- Candidate values for the mode, in sorted order (scipy's `mode` scans
sorted distinct values). -/
def sortCands (obs : List Value) : List Value :=
  (obs.dedup).insertionSort fun a b => Value.leB a b

/-- Scan candidates keeping the first one attaining the maximal count;
only a strictly larger count displaces the current best, so the smallest
value wins ties, matching `scipy.stats.mode`. -/
def pickMax (obs : List Value) (best : Value) : List Value → Value
  | [] => best
  | c :: cs => if cnt c obs > cnt best obs then pickMax obs c cs else pickMax obs best cs

/-- Fitted statistic of one column for
`Imputer(missing_values=0, strategy='most_frequent')`: the most frequent
value among the non-sentinel entries, or `none` (NaN) when every entry is
the sentinel. -/
def columnStatistic (vs : List Value) : Option Value :=
  let obs := vs.filter fun v => v ≠ Value.int 0
  match sortCands obs with
  | [] => none
  | c :: cs => some (pickMax obs c cs)

/-- Fitted state of `ImputeCategorical`: the resolved column list and the
per-column statistic of the wrapped sklearn `Imputer`. -/
structure ImputeCategorical where
  columns : List String
  statistics : List (String × Option Value)
deriving DecidableEq

/-- `Imputer.fit` over the designated columns: a missing column raises, as
does a string cell (the imputer converts to a float array). -/
def fitStatistics : List String → Table → Option (List (String × Option Value))
  | [], _ => some []
  | c :: rest, data =>
    match lookupCol data c with
    | none => none
    | some vs =>
      if allInt vs then
        match fitStatistics rest data with
        | none => none
        | some tail => some ((c, columnStatistic vs) :: tail)
      else none

/-- `ImputeCategorical.fit(data, target)`: resolves `columns=None` to all
columns and fits the single sklearn imputer over them.  The `target`
argument is accepted and ignored, exactly as in the source. -/
def imputeFit (columns : Option (List String)) (data : Table)
    (_target : Option (List Int)) : Option ImputeCategorical :=
  match fitStatistics (columns.getD (colNames data)) data with
  | none => none
  | some sts => some ⟨columns.getD (colNames data), sts⟩

/-- Per-column work of `ImputeCategorical.transform`: replace sentinel
entries by the fitted statistic.  A column whose statistic is NaN was
dropped by sklearn, so writing the result back into the frame raises
(`none`); string cells raise as at fit time. -/
def imputeUpdates : List (String × Option Value) → Table → Option (List (String × List Value))
  | [], _ => some []
  | (c, st) :: rest, data =>
    match lookupCol data c with
    | none => none
    | some vs =>
      if allInt vs then
        match st with
        | none => none
        | some w =>
          match imputeUpdates rest data with
          | none => none
          | some tail =>
            some ((c, vs.map fun v => if v = Value.int 0 then w else v) :: tail)
      else none

/-- `ImputeCategorical.transform`: copies the frame and overwrites the
designated columns with their imputed values. -/
def imputeTransform (imp : ImputeCategorical) (data : Table) : Option Table :=
  match imputeUpdates imp.statistics data with
  | none => none
  | some us => some (applyUpdates data us)

/-! ### Logistic regression and the census Pipeline (predict.py lines 324-331) -/

/-- Fitted state of `LogisticRegression`: coefficients and intercept of the
linear decision boundary. -/
structure LogisticRegression where
  coef : List Rat
  intercept : Rat
deriving DecidableEq

/-- Decision value of one sample. -/
def lrDecision (clf : LogisticRegression) (x : List Rat) : Rat :=
  (List.zipWith (fun a b => a * b) clf.coef x).sum + clf.intercept

/-- `LogisticRegression.predict` on one sample: class 1 above the boundary,
class 0 otherwise. -/
def lrPredictRow (clf : LogisticRegression) (x : List Rat) : Int :=
  if 0 < lrDecision clf x then 1 else 0

/-- One row of the numeric feature matrix a table denotes: cell `i` of each
column, in column order.  Requires every cell to be numeric. -/
def tableRow (data : Table) (i : Nat) : List Rat :=
  data.map fun p => match p.2.getD i (Value.int 0) with
    | .int n => (n : Rat)
    | .str _ => 0

/-- Number of rows of a table (length of its first column). -/
def rowCount (data : Table) : Nat :=
  match data with
  | [] => 0
  | (_, vs) :: _ => vs.length

/-- The numeric feature matrix of a table, `none` when some cell is still a
string (sklearn's conversion to a float array raises). -/
def tableRows (data : Table) : Option (List (List Rat)) :=
  if data.all fun p => allInt p.2 ∧ p.2.length = rowCount data then
    some ((List.range (rowCount data)).map (tableRow data))
  else none

/-- `LogisticRegression.predict` on a table. -/
def clfPredictTable (clf : LogisticRegression) (data : Table) : Option (List Int) :=
  match tableRows data with
  | none => none
  | some rows => some (rows.map (lrPredictRow clf))

/-- Fitted state of the `census` Pipeline: encoder, imputer, classifier. -/
structure FittedPipeline where
  enc : EncodeCategorical
  imp : ImputeCategorical
  clf : LogisticRegression
deriving DecidableEq

/-- `census.fit(X, y)` (sklearn Pipeline semantics): fit-then-transform the
encoder on `(X, y)`, fit-then-transform the imputer on the encoder's output
and `y`, then fit the terminal classifier on the final transformed output
and `y`.  The classifier's training routine (iterative float optimisation)
is a parameter. -/
def censusFit (clfFit : Table → List Int → LogisticRegression)
    (catCols impCols : List String) (X : Table) (y : List Int) :
    Option FittedPipeline :=
  match encodeFit (some catCols) X (some y) with
  | none => none
  | some enc =>
    match encodeTransform enc X with
    | none => none
    | some X1 =>
      match imputeFit (some impCols) X1 (some y) with
      | none => none
      | some imp =>
        match imputeTransform imp X1 with
        | none => none
        | some X2 => some ⟨enc, imp, clfFit X2 y⟩

/-- `census.predict(Z)`: transform-only through the fitted encoder and
imputer, then predict with the terminal classifier. -/
def censusPredict (p : FittedPipeline) (Z : Table) : Option (List Int) :=
  match encodeTransform p.enc Z with
  | none => none
  | some Z1 =>
    match imputeTransform p.imp Z1 with
    | none => none
    | some Z2 => clfPredictTable p.clf Z2

/-! ### Target encoding and trailing-period stripping (predict.py lines 321, 334) -/

/-- `LabelEncoder.transform` on a single target value (the fitted encoder is
its class list). -/
def labelTransform (classes : List Value) (v : Value) : Option Int :=
  if v ∈ classes then some (idxOf classes v) else none

/-- Python's `y.rstrip(".")`: remove every trailing period. -/
def rstripDots (s : String) : String :=
  ⟨(s.data.reverse.dropWhile fun ch => ch = '.').reverse⟩

/-! ### Interactive prediction (predict.py lines 289-310) -/

/-- Whether the prompt loop accepts an entered string: `valid` is the
`meta['categorical_features'].get(column)` lookup; a `None` or empty domain
is falsy so everything is accepted, otherwise the entered string with one
space prepended must be in the domain. -/
def acceptable (valid : Option (List Value)) (s : String) : Bool :=
  match valid with
  | none => true
  | some l => l.isEmpty || containsV l (Value.str (" " ++ s))

/-- The `while True` prompt loop for one column, consuming entered strings
until one is accepted; the stored value is the accepted string with one
space prepended.  Exhausting the stream models looping forever (`none`). -/
def askLoop (valid : Option (List Value)) : List String → Option (String × List String)
  | [] => none
  | s :: rest =>
    if acceptable valid s then some (" " ++ s, rest) else askLoop valid rest

/-- Domain lookup `meta['categorical_features'].get(column)`. -/
def domainOf (m : MetaData) (c : String) : Option (List Value) :=
  match m.categorical_features.find? fun p => p.1 = c with
  | none => none
  | some p => some p.2

/-- One iteration of the feature loop in `predict`: `fnlwgt` is given the
fixed constant 189778 without consuming input, every other feature runs the
prompt loop against its domain. -/
def askColumn (m : MetaData) (c : String) (inputs : List String) :
    Option (Value × List String) :=
  if c = "fnlwgt" then some (Value.int 189778, inputs)
  else
    match askLoop (domainOf m c) inputs with
    | none => none
    | some (v, rest) => some (Value.str v, rest)

/-- The feature loop of `predict` over `meta['feature_names'][:-1]`,
threading the stream of entered strings. -/
def collectInputs (m : MetaData) : List String → List String →
    Option (List (String × Value) × List String)
  | [], inputs => some ([], inputs)
  | c :: cs, inputs =>
    match askColumn m c inputs with
    | none => none
    | some (v, rest) =>
      match collectInputs m cs rest with
      | none => none
      | some (row, rest2) => some ((c, v) :: row, rest2)

/-- Numpy-style indexing used by `LabelEncoder.inverse_transform`:
nonnegative indices from the front, negative indices from the back, out of
range raises. -/
def npIndex (classes : List Value) (k : Int) : Option Value :=
  if 0 ≤ k then classes.get? k.toNat
  else if (-k).toNat ≤ classes.length then
    classes.get? (classes.length - (-k).toNat)
  else none

/-- The `predict` command-line routine: collect one value per feature (all
features but the target), build the single-row frame, predict with the
model, and emit the decoded class label `yencode.inverse_transform(yhat)[0]`.
The model is a parameter, as in `def predict(model, meta=meta)`. -/
def predictCLI (modelPredict : Table → Option (List Int)) (m : MetaData)
    (yclasses : List Value) (inputs : List String) : Option Value :=
  match collectInputs m m.feature_names.dropLast inputs with
  | none => none
  | some (row, _) =>
    match modelPredict (row.map fun p => (p.1, [p.2])) with
    | none => none
    | some yhat =>
      match yhat.head? with
      | none => none
      | some k => npIndex yclasses k

/-! ### Pickling (predict.py lines 277-286)

`dump_model` / `load_model` delegate to Python's `pickle`, whose contract is
that loading a dump reproduces an equal object.  Pickle is modelled as an
explicit injective token codec for the fitted pipeline state, with a proved
round trip. -/

/-- Serialized tokens. -/
inductive Tok where
  | tn : Nat → Tok
  | ti : Int → Tok
  | ts : String → Tok
  | tq : Rat → Tok
deriving DecidableEq

/-- Encode one cell value. -/
def encValue : Value → List Tok
  | .int n => [Tok.tn 0, Tok.ti n]
  | .str s => [Tok.tn 1, Tok.ts s]

/-- Decode one cell value, returning the unread remainder. -/
def decValue : List Tok → Option (Value × List Tok)
  | Tok.tn 0 :: Tok.ti n :: r => some (Value.int n, r)
  | Tok.tn 1 :: Tok.ts s :: r => some (Value.str s, r)
  | _ => none

/-- Encode a list element-wise with a length header. -/
def encList (f : α → List Tok) (xs : List α) : List Tok :=
  Tok.tn xs.length :: xs.foldr (fun x acc => f x ++ acc) []

/-- Decode `n` elements. -/
def decListN (g : List Tok → Option (α × List Tok)) :
    Nat → List Tok → Option (List α × List Tok)
  | 0, r => some ([], r)
  | n + 1, r =>
    match g r with
    | none => none
    | some (x, r1) =>
      match decListN g n r1 with
      | none => none
      | some (xs, r2) => some (x :: xs, r2)

/-- Decode a length-headed list. -/
def decList (g : List Tok → Option (α × List Tok)) :
    List Tok → Option (List α × List Tok)
  | Tok.tn n :: r => decListN g n r
  | _ => none

/-- Encode a string token. -/
def encStr (s : String) : List Tok := [Tok.ts s]

/-- Decode a string token. -/
def decStr : List Tok → Option (String × List Tok)
  | Tok.ts s :: r => some (s, r)
  | _ => none

/-- Encode a rational token. -/
def encRat (q : Rat) : List Tok := [Tok.tq q]

/-- Decode a rational token. -/
def decRat : List Tok → Option (Rat × List Tok)
  | Tok.tq q :: r => some (q, r)
  | _ => none

/-- Encode one fitted label encoder (column name and class list). -/
def encEncoder (p : String × List Value) : List Tok :=
  Tok.ts p.1 :: encList encValue p.2

/-- Decode one fitted label encoder. -/
def decEncoder : List Tok → Option ((String × List Value) × List Tok)
  | Tok.ts c :: r =>
    match decList decValue r with
    | none => none
    | some (vs, r1) => some ((c, vs), r1)
  | _ => none

/-- Encode one fitted imputer statistic. -/
def encStat (p : String × Option Value) : List Tok :=
  match p.2 with
  | none => [Tok.ts p.1, Tok.tn 0]
  | some v => Tok.ts p.1 :: Tok.tn 1 :: encValue v

/-- Decode one fitted imputer statistic. -/
def decStat : List Tok → Option ((String × Option Value) × List Tok)
  | Tok.ts c :: Tok.tn 0 :: r => some ((c, none), r)
  | Tok.ts c :: Tok.tn 1 :: r =>
    match decValue r with
    | none => none
    | some (v, r1) => some ((c, some v), r1)
  | _ => none

/-- Serialize the whole fitted pipeline state: encoder columns and class
lists, imputer columns and statistics, classifier coefficients and
intercept. -/
def encPipeline (p : FittedPipeline) : List Tok :=
  encList encStr p.enc.columns ++ encList encEncoder p.enc.encoders ++
    encList encStr p.imp.columns ++ encList encStat p.imp.statistics ++
    encList encRat p.clf.coef ++ encRat p.clf.intercept

/-- Deserialize a fitted pipeline state. -/
def decPipeline (r : List Tok) : Option (FittedPipeline × List Tok) :=
  match decList decStr r with
  | none => none
  | some (ecols, r1) =>
    match decList decEncoder r1 with
    | none => none
    | some (es, r2) =>
      match decList decStr r2 with
      | none => none
      | some (icols, r3) =>
        match decList decStat r3 with
        | none => none
        | some (sts, r4) =>
          match decList decRat r4 with
          | none => none
          | some (coef, r5) =>
            match decRat r5 with
            | none => none
            | some (b, r6) => some (⟨⟨ecols, es⟩, ⟨icols, sts⟩, ⟨coef, b⟩⟩, r6)

/-- `dump_model`: pickle the fitted pipeline into an opaque blob. -/
def dump_model (p : FittedPipeline) : List Tok := encPipeline p

/-- `load_model`: unpickle a blob back into a fitted pipeline; a blob that
is not a complete pickle of one pipeline fails. -/
def load_model (blob : List Tok) : Option FittedPipeline :=
  match decPipeline blob with
  | some (p, []) => some p
  | _ => none

/-! ### Lemmas: table plumbing -/

lemma lookupCol_map_set (d : Table) (c : String) (ws : List Value)
    (h : hasCol d c = true) :
    lookupCol (d.map fun p => if p.1 = c then (c, ws) else p) c = some ws := by
  induction d with
  | nil => simp [hasCol] at h
  | cons p rest ih =>
    obtain ⟨c0, vs⟩ := p
    rw [List.map_cons]
    by_cases hc : c0 = c
    · subst hc
      rw [show (if (c0, vs).1 = c0 then (c0, ws) else (c0, vs)) = (c0, ws) from if_pos rfl]
      rw [lookupCol, if_pos rfl]
    · rw [show (if (c0, vs).1 = c then (c, ws) else (c0, vs)) = (c0, vs) from if_neg hc]
      rw [lookupCol, if_neg hc]
      rw [hasCol] at h
      simp only [Bool.or_eq_true, decide_eq_true_eq] at h
      exact ih (h.resolve_left hc)

lemma lookupCol_map_set_ne (d : Table) (c c' : String) (ws : List Value)
    (h : c' ≠ c) :
    lookupCol (d.map fun p => if p.1 = c then (c, ws) else p) c' = lookupCol d c' := by
  induction d with
  | nil => rfl
  | cons p rest ih =>
    obtain ⟨c0, vs⟩ := p
    rw [List.map_cons]
    by_cases hc : c0 = c
    · subst hc
      rw [show (if (c0, vs).1 = c0 then (c0, ws) else (c0, vs)) = (c0, ws) from if_pos rfl]
      rw [lookupCol, lookupCol, if_neg (fun hh => h hh.symm), if_neg (fun hh => h hh.symm)]
      exact ih
    · rw [show (if (c0, vs).1 = c then (c, ws) else (c0, vs)) = (c0, vs) from if_neg hc]
      rw [lookupCol, lookupCol]
      by_cases hc' : c0 = c'
      · rw [if_pos hc', if_pos hc']
      · rw [if_neg hc', if_neg hc']
        exact ih

lemma lookupCol_append_single_ne (d : Table) (c c' : String) (ws : List Value)
    (h : c' ≠ c) :
    lookupCol (d ++ [(c, ws)]) c' = lookupCol d c' := by
  induction d with
  | nil =>
    rw [List.nil_append]
    simp [lookupCol, Ne.symm h]
  | cons p rest ih =>
    obtain ⟨c0, vs⟩ := p
    rw [List.cons_append, lookupCol, lookupCol]
    by_cases hc' : c0 = c'
    · rw [if_pos hc', if_pos hc']
    · rw [if_neg hc', if_neg hc']
      exact ih

lemma lookupCol_setCol_same (d : Table) (c : String) (ws : List Value) :
    lookupCol (setCol d c ws) c = some ws := by
  unfold setCol
  cases h : hasCol d c with
  | true =>
    rw [if_pos rfl]
    exact lookupCol_map_set d c ws h
  | false =>
    rw [if_neg Bool.false_ne_true]
    induction d with
    | nil =>
      rw [List.nil_append, lookupCol, if_pos rfl]
    | cons p rest ih =>
      obtain ⟨c0, vs⟩ := p
      rw [hasCol] at h
      simp only [Bool.or_eq_false_iff, decide_eq_false_iff_not] at h
      rw [List.cons_append, lookupCol, if_neg h.1]
      exact ih h.2

lemma lookupCol_setCol_ne (d : Table) (c c' : String) (ws : List Value)
    (h : c' ≠ c) : lookupCol (setCol d c ws) c' = lookupCol d c' := by
  unfold setCol
  cases hd : hasCol d c with
  | true =>
    rw [if_pos rfl]
    exact lookupCol_map_set_ne d c c' ws h
  | false =>
    rw [if_neg Bool.false_ne_true]
    exact lookupCol_append_single_ne d c c' ws h

lemma lookupCol_applyUpdates_notMem (d : Table) (us : List (String × List Value))
    (c : String) (h : c ∉ us.map Prod.fst) :
    lookupCol (applyUpdates d us) c = lookupCol d c := by
  induction us generalizing d with
  | nil => rfl
  | cons p rest ih =>
    obtain ⟨c0, ws⟩ := p
    simp only [List.map_cons, List.mem_cons] at h
    push_neg at h
    rw [applyUpdates, ih (setCol d c0 ws) h.2,
      lookupCol_setCol_ne _ _ _ _ h.1]

lemma lookupCol_applyUpdates_mem (d : Table) (us : List (String × List Value))
    (c : String) (ws : List Value) (hnd : (us.map Prod.fst).Nodup)
    (hmem : (c, ws) ∈ us) :
    lookupCol (applyUpdates d us) c = some ws := by
  induction us generalizing d with
  | nil => cases hmem
  | cons p rest ih =>
    obtain ⟨c0, ws0⟩ := p
    rw [List.map_cons, List.nodup_cons] at hnd
    rcases List.mem_cons.mp hmem with heq | hmem'
    · injection heq with h1 h2
      subst h1
      subst h2
      rw [applyUpdates, lookupCol_applyUpdates_notMem _ _ _ hnd.1,
        lookupCol_setCol_same]
    · rw [applyUpdates]
      exact ih (setCol d c0 ws0) hnd.2 hmem'

/-! ### Lemmas: sorting, dedup, counting -/

lemma mem_labelFit (vs : List Value) (v : Value) :
    v ∈ labelFit vs ↔ v ∈ vs := by
  simp [labelFit, List.mem_insertionSort, List.mem_dedup]

lemma mem_sortCands (obs : List Value) (v : Value) :
    v ∈ sortCands obs ↔ v ∈ obs := by
  simp [sortCands, List.mem_insertionSort, List.mem_dedup]

lemma idxOf_inj (classes : List Value) (a b : Value)
    (ha : a ∈ classes) (hb : b ∈ classes)
    (h : idxOf classes a = idxOf classes b) : a = b := by
  induction classes with
  | nil => cases ha
  | cons c rest ih =>
    by_cases hca : c = a
    · by_cases hcb : c = b
      · rw [← hca, ← hcb]
      · rw [idxOf, idxOf, if_pos hca, if_neg hcb] at h
        exact absurd h.symm (Nat.succ_ne_zero _)
    · by_cases hcb : c = b
      · rw [idxOf, idxOf, if_neg hca, if_pos hcb] at h
        exact absurd h (Nat.succ_ne_zero _)
      · rw [idxOf, idxOf, if_neg hca, if_neg hcb] at h
        exact ih ((List.mem_cons.mp ha).resolve_left fun hh => hca hh.symm)
          ((List.mem_cons.mp hb).resolve_left fun hh => hcb hh.symm)
          (Nat.succ_injective h)

lemma dedup_length_map_inj {α β : Type} [DecidableEq α] [DecidableEq β]
    (f : α → β) (l : List α)
    (hinj : ∀ a ∈ l, ∀ b ∈ l, f a = f b → a = b) :
    ((l.map f).dedup).length = (l.dedup).length := by
  induction l with
  | nil => rfl
  | cons x xs ih =>
    have hx : ∀ a ∈ xs, ∀ b ∈ xs, f a = f b → a = b := fun a ha b hb =>
      hinj a (List.mem_cons_of_mem _ ha) b (List.mem_cons_of_mem _ hb)
    by_cases hmem : x ∈ xs
    · have hfm : f x ∈ xs.map f := List.mem_map_of_mem f hmem
      rw [List.map_cons, List.dedup_cons_of_mem hfm,
        List.dedup_cons_of_mem hmem]
      exact ih hx
    · have hfm : f x ∉ xs.map f := by
        intro hc
        obtain ⟨y, hy, hfy⟩ := List.mem_map.mp hc
        have : y = x := hinj y (List.mem_cons_of_mem _ hy) x (List.mem_cons_self _ _) hfy
        exact hmem (this ▸ hy)
      rw [List.map_cons, List.dedup_cons_of_not_mem hfm,
        List.dedup_cons_of_not_mem hmem, List.length_cons, List.length_cons,
        ih hx]

/-! ### Lemmas: transformColumn -/

lemma transformColumn_eq_some (classes vs : List Value) :
    ∀ ws, transformColumn classes vs = some ws →
      ws = vs.map (fun v => Value.int (idxOf classes v)) ∧
        ∀ v ∈ vs, v ∈ classes := by
  induction vs with
  | nil =>
    intro ws h
    rw [transformColumn] at h
    injection h with h
    exact ⟨h.symm, by simp⟩
  | cons v rest ih =>
    intro ws h
    rw [transformColumn] at h
    by_cases hv : v ∈ classes
    · rw [if_pos hv] at h
      cases htc : transformColumn classes rest with
      | none => rw [htc] at h; cases h
      | some tail =>
        rw [htc] at h
        injection h with h
        obtain ⟨h1, h2⟩ := ih tail htc
        subst h
        constructor
        · rw [List.map_cons, h1]
        · intro u hu
          rcases List.mem_cons.mp hu with rfl | hu'
          · exact hv
          · exact h2 u hu'
    · rw [if_neg hv] at h
      cases h

lemma transformColumn_cons_none (classes vs : List Value) (v : Value)
    (h : v ∉ classes) : transformColumn classes (v :: vs) = none := by
  rw [transformColumn, if_neg h]

/-! ### Lemmas: fitting and transforming, column by column -/

lemma fitEncoders_keys (cols : List String) (data : Table) :
    ∀ es, fitEncoders cols data = some es → es.map Prod.fst = cols := by
  induction cols with
  | nil =>
    intro es h
    rw [fitEncoders] at h
    injection h with h
    rw [← h]
    rfl
  | cons c rest ih =>
    intro es h
    rw [fitEncoders] at h
    cases hl : lookupCol data c with
    | none => rw [hl] at h; cases h
    | some vs =>
      rw [hl] at h
      cases hf : fitEncoders rest data with
      | none => rw [hf] at h; cases h
      | some tail =>
        rw [hf] at h
        injection h with h
        rw [← h, List.map_cons, ih tail hf]

lemma fitEncoders_mem (cols : List String) (data : Table) (c : String)
    (vs : List Value) :
    ∀ es, fitEncoders cols data = some es → c ∈ cols →
      lookupCol data c = some vs → (c, labelFit vs) ∈ es := by
  induction cols with
  | nil => intro es _ hc; cases hc
  | cons c0 rest ih =>
    intro es h hc hv
    rw [fitEncoders] at h
    cases hl : lookupCol data c0 with
    | none => rw [hl] at h; cases h
    | some vs0 =>
      rw [hl] at h
      cases hf : fitEncoders rest data with
      | none => rw [hf] at h; cases h
      | some tail =>
        rw [hf] at h
        injection h with h
        rcases List.mem_cons.mp hc with rfl | hc'
        · have hvv : vs0 = vs := by
            rw [hl] at hv
            injection hv
          rw [← h, hvv]
          exact List.mem_cons_self _ _
        · rw [← h]
          exact List.mem_cons_of_mem _ (ih tail hf hc' hv)

lemma encodeUpdates_keys (es : List (String × List Value)) (data : Table) :
    ∀ us, encodeUpdates es data = some us → us.map Prod.fst = es.map Prod.fst := by
  induction es with
  | nil =>
    intro us h
    rw [encodeUpdates] at h
    injection h with h
    rw [← h]
  | cons p rest ih =>
    obtain ⟨c, classes⟩ := p
    intro us h
    rw [encodeUpdates] at h
    split at h
    · cases h
    · rename_i vs hl
      split at h
      · cases h
      · rename_i ws ht
        split at h
        · cases h
        · rename_i tail he
          injection h with h
          rw [← h, List.map_cons, List.map_cons, ih tail he]

lemma encodeUpdates_mem (es : List (String × List Value)) (data : Table)
    (c : String) (classes : List Value) :
    ∀ us, encodeUpdates es data = some us → (c, classes) ∈ es →
      ∃ vs ws, lookupCol data c = some vs ∧
        transformColumn classes vs = some ws ∧ (c, ws) ∈ us := by
  induction es with
  | nil => intro us _ hc; cases hc
  | cons p rest ih =>
    obtain ⟨c0, classes0⟩ := p
    intro us h hc
    rw [encodeUpdates] at h
    split at h
    · cases h
    · rename_i vs0 hl
      split at h
      · cases h
      · rename_i ws0 ht
        split at h
        · cases h
        · rename_i tail he
          injection h with h
          rcases List.mem_cons.mp hc with heq | hc'
          · injection heq with e1 e2
            subst e1
            subst e2
            exact ⟨vs0, ws0, hl, ht, by rw [← h]; exact List.mem_cons_self _ _⟩
          · obtain ⟨vs, ws, h1, h2, h3⟩ := ih tail he hc'
            exact ⟨vs, ws, h1, h2, by rw [← h]; exact List.mem_cons_of_mem _ h3⟩

lemma encodeUpdates_none (es : List (String × List Value)) (data : Table)
    (c : String) (classes vs : List Value)
    (hmem : (c, classes) ∈ es) (hl : lookupCol data c = some vs)
    (ht : transformColumn classes vs = none) :
    encodeUpdates es data = none := by
  induction es with
  | nil => cases hmem
  | cons p rest ih =>
    obtain ⟨c0, classes0⟩ := p
    rw [encodeUpdates]
    rcases List.mem_cons.mp hmem with heq | hmem'
    · injection heq with e1 e2
      subst e1
      subst e2
      split
      · rfl
      · rename_i vs0 hl0
        rw [hl0] at hl
        injection hl with hl
        subst hl
        split
        · rfl
        · rename_i ws0 ht0
          rw [ht] at ht0
          cases ht0
    · split
      · rfl
      · rename_i vs0 hl0
        split
        · rfl
        · rename_i ws0 ht0
          rw [ih hmem']

lemma fitStatistics_keys (cols : List String) (data : Table) :
    ∀ sts, fitStatistics cols data = some sts → sts.map Prod.fst = cols := by
  induction cols with
  | nil =>
    intro sts h
    rw [fitStatistics] at h
    injection h with h
    subst h
    rfl
  | cons c rest ih =>
    intro sts h
    rw [fitStatistics] at h
    split at h
    · cases h
    · rename_i vs hl
      split at h
      · split at h
        · cases h
        · rename_i tail hf
          injection h with h
          rw [← h, List.map_cons, ih tail hf]
      · cases h

lemma fitStatistics_mem (cols : List String) (data : Table) (c : String)
    (vs : List Value) :
    ∀ sts, fitStatistics cols data = some sts → c ∈ cols →
      lookupCol data c = some vs →
      allInt vs = true ∧ (c, columnStatistic vs) ∈ sts := by
  induction cols with
  | nil => intro sts _ hc; cases hc
  | cons c0 rest ih =>
    intro sts h hc hv
    rw [fitStatistics] at h
    split at h
    · cases h
    · rename_i vs0 hl
      split at h
      · rename_i hint
        split at h
        · cases h
        · rename_i tail hf
          injection h with h
          rcases List.mem_cons.mp hc with rfl | hc'
          · have hvv : vs0 = vs := by
              rw [hl] at hv
              injection hv
            subst hvv
            exact ⟨hint, by rw [← h]; exact List.mem_cons_self _ _⟩
          · obtain ⟨h1, h2⟩ := ih tail hf hc' hv
            exact ⟨h1, by rw [← h]; exact List.mem_cons_of_mem _ h2⟩
      · cases h

lemma imputeUpdates_keys (sts : List (String × Option Value)) (data : Table) :
    ∀ us, imputeUpdates sts data = some us → us.map Prod.fst = sts.map Prod.fst := by
  induction sts with
  | nil =>
    intro us h
    rw [imputeUpdates] at h
    injection h with h
    subst h
    rfl
  | cons p rest ih =>
    obtain ⟨c, st⟩ := p
    intro us h
    rw [imputeUpdates] at h
    split at h
    · cases h
    · rename_i vs hl
      split at h
      · split at h
        · cases h
        · rename_i w
          split at h
          · cases h
          · rename_i tail hi
            injection h with h
            rw [← h, List.map_cons, List.map_cons, ih tail hi]
      · cases h

lemma imputeUpdates_mem (sts : List (String × Option Value)) (data : Table)
    (c : String) (st : Option Value) :
    ∀ us, imputeUpdates sts data = some us → (c, st) ∈ sts →
      ∃ vs w, lookupCol data c = some vs ∧ allInt vs = true ∧ st = some w ∧
        (c, vs.map fun v => if v = Value.int 0 then w else v) ∈ us := by
  induction sts with
  | nil => intro us _ hc; cases hc
  | cons p rest ih =>
    obtain ⟨c0, st0⟩ := p
    intro us h hc
    rw [imputeUpdates] at h
    split at h
    · cases h
    · rename_i vs0 hl
      split at h
      · rename_i hint
        split at h
        · cases h
        · rename_i w0
          split at h
          · cases h
          · rename_i tail hi
            injection h with h
            rcases List.mem_cons.mp hc with heq | hc'
            · injection heq with e1 e2
              subst e1
              subst e2
              exact ⟨vs0, w0, hl, hint, rfl,
                by rw [← h]; exact List.mem_cons_self _ _⟩
            · obtain ⟨vs, w, h1, h2, h3, h4⟩ := ih tail hi hc'
              exact ⟨vs, w, h1, h2, h3,
                by rw [← h]; exact List.mem_cons_of_mem _ h4⟩
      · cases h

/-! ### Lemmas: the fitted imputer statistic -/

lemma pickMax_mem (obs : List Value) (cs : List Value) :
    ∀ best, pickMax obs best cs ∈ best :: cs := by
  induction cs with
  | nil => intro best; rw [pickMax]; exact List.mem_cons_self _ _
  | cons c rest ih =>
    intro best
    rw [pickMax]
    by_cases hgt : cnt c obs > cnt best obs
    · rw [if_pos hgt]
      exact List.mem_cons_of_mem _ (ih c)
    · rw [if_neg hgt]
      rcases List.mem_cons.mp (ih best) with heq | hm
      · rw [heq]
        exact List.mem_cons_self _ _
      · exact List.mem_cons_of_mem _ (List.mem_cons_of_mem _ hm)

lemma pickMax_max (obs : List Value) (cs : List Value) :
    ∀ best, ∀ x ∈ best :: cs, cnt x obs ≤ cnt (pickMax obs best cs) obs := by
  induction cs with
  | nil =>
    intro best x hx
    rcases List.mem_cons.mp hx with rfl | hm
    · rw [pickMax]
    · cases hm
  | cons c rest ih =>
    intro best x hx
    rw [pickMax]
    by_cases hgt : cnt c obs > cnt best obs
    · rw [if_pos hgt]
      rcases List.mem_cons.mp hx with heq | hm
      · rw [heq]
        exact le_trans (le_of_lt hgt) (ih c c (List.mem_cons_self _ _))
      · exact ih c x hm
    · rw [if_neg hgt]
      rcases List.mem_cons.mp hx with heq | hm
      · rw [heq]
        exact ih best best (List.mem_cons_self _ _)
      · rcases List.mem_cons.mp hm with heq' | hm'
        · rw [heq']
          exact le_trans (le_of_not_lt hgt) (ih best best (List.mem_cons_self _ _))
        · exact ih best x (List.mem_cons_of_mem _ hm')

lemma columnStatistic_spec (vs : List Value) (w : Value)
    (h : columnStatistic vs = some w) :
    w ∈ vs ∧ w ≠ Value.int 0 ∧
      ∀ u ∈ vs, u ≠ Value.int 0 →
        cnt u (vs.filter fun v => v ≠ Value.int 0) ≤
          cnt w (vs.filter fun v => v ≠ Value.int 0) := by
  rw [columnStatistic] at h
  split at h
  · cases h
  · rename_i c cs hsc
    injection h with h
    have hw : w ∈ sortCands (vs.filter fun v => v ≠ Value.int 0) := by
      rw [hsc, ← h]
      exact pickMax_mem _ cs c
    have hwf : w ∈ vs.filter fun v => v ≠ Value.int 0 :=
      (mem_sortCands _ w).mp hw
    have hwv := List.mem_filter.mp hwf
    refine ⟨hwv.1, by simpa using hwv.2, fun u hu hu0 => ?_⟩
    have huf : u ∈ vs.filter fun v => v ≠ Value.int 0 :=
      List.mem_filter.mpr ⟨hu, by simpa using hu0⟩
    have husc : u ∈ c :: cs := by
      rw [← hsc]
      exact (mem_sortCands _ u).mpr huf
    rw [← h]
    exact pickMax_max _ cs c u husc

/-! ### Lemmas: uniqueInOrder -/

lemma mem_uniqueAux (l : List Value) :
    ∀ (seen : List Value) (v : Value),
      v ∈ uniqueAux seen l ↔ (v ∈ l ∧ v ∉ seen) := by
  induction l with
  | nil => intro seen v; simp [uniqueAux]
  | cons u us ih =>
    intro seen v
    rw [uniqueAux]
    by_cases hu : u ∈ seen
    · rw [if_pos hu, ih]
      constructor
      · rintro ⟨hv, hs⟩
        exact ⟨List.mem_cons_of_mem _ hv, hs⟩
      · rintro ⟨hv, hs⟩
        rcases List.mem_cons.mp hv with rfl | hv'
        · exact absurd hu hs
        · exact ⟨hv', hs⟩
    · rw [if_neg hu]
      constructor
      · intro h
        rcases List.mem_cons.mp h with rfl | h'
        · exact ⟨List.mem_cons_self _ _, hu⟩
        · obtain ⟨h1, h2⟩ := (ih (u :: seen) v).mp h'
          exact ⟨List.mem_cons_of_mem _ h1,
            fun hs => h2 (List.mem_cons_of_mem _ hs)⟩
      · rintro ⟨hv, hs⟩
        rcases List.mem_cons.mp hv with rfl | hv'
        · exact List.mem_cons_self _ _
        · by_cases hvu : v = u
          · rw [hvu]
            exact List.mem_cons_self _ _
          · refine List.mem_cons_of_mem _ ((ih (u :: seen) v).mpr ⟨hv', ?_⟩)
            intro hmem
            rcases List.mem_cons.mp hmem with heq | hseen
            · exact hvu heq
            · exact hs hseen

lemma mem_uniqueInOrder (l : List Value) (v : Value) :
    v ∈ uniqueInOrder l ↔ v ∈ l := by
  rw [uniqueInOrder, mem_uniqueAux]
  simp

lemma nodup_uniqueAux (l : List Value) :
    ∀ seen, (uniqueAux seen l).Nodup := by
  induction l with
  | nil => intro seen; rw [uniqueAux]; exact List.nodup_nil
  | cons u us ih =>
    intro seen
    rw [uniqueAux]
    by_cases hu : u ∈ seen
    · rw [if_pos hu]
      exact ih seen
    · rw [if_neg hu]
      refine List.nodup_cons.mpr ⟨fun hmem => ?_, ih (u :: seen)⟩
      exact ((mem_uniqueAux us (u :: seen) u).mp hmem).2 (List.mem_cons_self _ _)

lemma nodup_uniqueInOrder (l : List Value) : (uniqueInOrder l).Nodup :=
  nodup_uniqueAux l []

/-! ### Lemmas: strings and rstrip -/

lemma string_append_data (a b : String) : (a ++ b).data = a.data ++ b.data := by
  cases a
  cases b
  rfl

lemma rstripDots_no_trailing (s : String)
    (h : s.data.getLast? ≠ some '.') : rstripDots (s ++ ".") = s := by
  rw [rstripDots, string_append_data]
  have hrev : (s.data ++ ".".data).reverse = '.' :: s.data.reverse := by
    rw [List.reverse_append]
    rfl
  rw [hrev]
  rw [show List.dropWhile (fun ch => ch = '.') ('.' :: s.data.reverse) =
      List.dropWhile (fun ch => ch = '.') s.data.reverse from by
    rw [List.dropWhile_cons_of_pos (by simp)]]
  cases hd : s.data.reverse with
  | nil =>
    have : s.data = [] := by simpa using congrArg List.reverse hd
    cases s
    simp_all
  | cons ch rest =>
    have hch : ch ≠ '.' := by
      intro hc
      apply h
      rw [← List.head?_reverse, hd, hc]
      rfl
    rw [List.dropWhile_cons_of_neg (by simpa using hch), ← hd,
      List.reverse_reverse]

/-! ### Lemmas: the interactive prompt loop -/

lemma containsV_iff (l : List Value) (v : Value) :
    containsV l v = true ↔ v ∈ l := by
  induction l with
  | nil => simp [containsV]
  | cons u us ih =>
    rw [containsV]
    simp only [Bool.or_eq_true, decide_eq_true_eq, List.mem_cons, ih]
    constructor
    · rintro (rfl | hm)
      · exact Or.inl rfl
      · exact Or.inr hm
    · rintro (rfl | hm)
      · exact Or.inl rfl
      · exact Or.inr hm

lemma askLoop_some (valid : Option (List Value)) :
    ∀ inputs v rest, askLoop valid inputs = some (v, rest) →
      ∃ pre s, inputs = pre ++ s :: rest ∧
        (∀ t ∈ pre, acceptable valid t = false) ∧
        acceptable valid s = true ∧ v = " " ++ s := by
  intro inputs
  induction inputs with
  | nil => intro v rest h; cases h
  | cons s0 rest0 ih =>
    intro v rest h
    rw [askLoop] at h
    by_cases hacc : acceptable valid s0 = true
    · rw [if_pos hacc] at h
      injection h with h
      injection h with h1 h2
      exact ⟨[], s0, by rw [h2, List.nil_append], by simp, hacc, h1.symm⟩
    · rw [if_neg hacc] at h
      obtain ⟨pre, s, h1, h2, h3, h4⟩ := ih v rest h
      refine ⟨s0 :: pre, s, by rw [h1]; rfl, ?_, h3, h4⟩
      intro t ht
      rcases List.mem_cons.mp ht with rfl | ht'
      · simpa using hacc
      · exact h2 t ht'

lemma askLoop_none (valid : Option (List Value)) :
    ∀ inputs, askLoop valid inputs = none ↔
      ∀ s ∈ inputs, acceptable valid s = false := by
  intro inputs
  induction inputs with
  | nil => simp [askLoop]
  | cons s0 rest0 ih =>
    rw [askLoop]
    by_cases hacc : acceptable valid s0 = true
    · rw [if_pos hacc]
      constructor
      · intro h; cases h
      · intro h
        rw [h s0 (List.mem_cons_self _ _)] at hacc
        cases hacc
    · rw [if_neg hacc]
      constructor
      · intro h t ht
        rcases List.mem_cons.mp ht with rfl | ht'
        · simpa using hacc
        · exact (ih.mp h) t ht'
      · intro h
        exact ih.mpr fun t ht => h t (List.mem_cons_of_mem _ ht)

/-! ### Lemmas: the pickle codec round trip -/

lemma decValue_enc (v : Value) (r : List Tok) :
    decValue (encValue v ++ r) = some (v, r) := by
  cases v <;> rfl

lemma decStr_enc (s : String) (r : List Tok) :
    decStr (encStr s ++ r) = some (s, r) := rfl

lemma decRat_enc (q : Rat) (r : List Tok) :
    decRat (encRat q ++ r) = some (q, r) := rfl

lemma decListN_enc {α : Type} (f : α → List Tok)
    (g : List Tok → Option (α × List Tok))
    (hg : ∀ x r, g (f x ++ r) = some (x, r)) :
    ∀ (xs : List α) (r : List Tok),
      decListN g xs.length (xs.foldr (fun x acc => f x ++ acc) [] ++ r) =
        some (xs, r) := by
  intro xs
  induction xs with
  | nil =>
    intro r
    rw [List.length_nil, List.foldr_nil, List.nil_append, decListN]
  | cons x xs ih =>
    intro r
    simp only [List.length_cons, List.foldr_cons, List.append_assoc,
      decListN, hg, ih]

lemma decList_enc {α : Type} (f : α → List Tok)
    (g : List Tok → Option (α × List Tok))
    (hg : ∀ x r, g (f x ++ r) = some (x, r))
    (xs : List α) (r : List Tok) :
    decList g (encList f xs ++ r) = some (xs, r) := by
  rw [encList, List.cons_append, decList]
  exact decListN_enc f g hg xs r

lemma decEncoder_enc (p : String × List Value) (r : List Tok) :
    decEncoder (encEncoder p ++ r) = some (p, r) := by
  obtain ⟨c, vs⟩ := p
  simp only [encEncoder, List.cons_append, decEncoder,
    decList_enc encValue decValue decValue_enc]

lemma decStat_enc (p : String × Option Value) (r : List Tok) :
    decStat (encStat p ++ r) = some (p, r) := by
  obtain ⟨c, st⟩ := p
  cases st with
  | none => rfl
  | some v =>
    simp only [encStat, List.cons_append, decStat, decValue_enc]

lemma decPipeline_enc (p : FittedPipeline) (r : List Tok) :
    decPipeline (encPipeline p ++ r) = some (p, r) := by
  obtain ⟨⟨ecols, es⟩, ⟨icols, sts⟩, ⟨coef, b⟩⟩ := p
  simp only [encPipeline, List.append_assoc, decPipeline,
    decList_enc encStr decStr decStr_enc,
    decList_enc encEncoder decEncoder decEncoder_enc,
    decList_enc encStat decStat decStat_enc,
    decList_enc encRat decRat decRat_enc,
    decRat_enc]

lemma load_model_dump_model (p : FittedPipeline) :
    load_model (dump_model p) = some p := by
  have h : decPipeline (encPipeline p ++ []) = some (p, []) := decPipeline_enc p []
  rw [List.append_nil] at h
  rw [load_model, dump_model, h]

/-! ### Helper definitions and extraction lemmas for the claim theorems -/

/-- Whether every cell of a column is a raw (string) category. -/
def allStr (vs : List Value) : Bool :=
  vs.all fun v => match v with
    | .str _ => true
    | .int _ => false

lemma allStr_mem (vs : List Value) (v : Value) (h : allStr vs = true)
    (hv : v ∈ vs) : ∃ s, v = Value.str s := by
  rw [allStr, List.all_eq_true] at h
  cases v with
  | str s => exact ⟨s, rfl⟩
  | int n => cases h _ hv

/-- The stored-value form of a domain string: its text after the leading
space, when it has one. -/
def stripLeadSpace (v : Value) : Option String :=
  match v with
  | .str d =>
    match d.data with
    | ' ' :: t => some (String.mk t)
    | _ => none
  | .int _ => none

/-- The entered strings the prompt loop can accept for a domain: the domain
strings with their leading space removed. -/
def domainInputs (l : List Value) : List String := l.filterMap stripLeadSpace

lemma stripLeadSpace_space (t : String) :
    stripLeadSpace (Value.str (" " ++ t)) = some t := by
  obtain ⟨td⟩ := t
  rfl

lemma encodeFit_some (cols : List String) (T : Table) (t : Option (List Int))
    (enc : EncodeCategorical) (h : encodeFit (some cols) T t = some enc) :
    enc.columns = cols ∧ fitEncoders cols T = some enc.encoders := by
  rw [encodeFit, Option.getD_some] at h
  split at h
  · cases h
  · rename_i es hes
    injection h with h
    rw [← h]
    exact ⟨rfl, hes⟩

lemma imputeFit_some (cols : List String) (T : Table) (t : Option (List Int))
    (imp : ImputeCategorical) (h : imputeFit (some cols) T t = some imp) :
    imp.columns = cols ∧ fitStatistics cols T = some imp.statistics := by
  rw [imputeFit, Option.getD_some] at h
  split at h
  · cases h
  · rename_i sts hst
    injection h with h
    rw [← h]
    exact ⟨rfl, hst⟩

lemma encodeTransform_some (enc : EncodeCategorical) (data out : Table)
    (h : encodeTransform enc data = some out) :
    ∃ us, encodeUpdates enc.encoders data = some us ∧ out = applyUpdates data us := by
  rw [encodeTransform] at h
  split at h
  · cases h
  · rename_i us hus
    injection h with h
    exact ⟨us, hus, h.symm⟩

lemma imputeTransform_some (imp : ImputeCategorical) (data out : Table)
    (h : imputeTransform imp data = some out) :
    ∃ us, imputeUpdates imp.statistics data = some us ∧ out = applyUpdates data us := by
  rw [imputeTransform] at h
  split at h
  · cases h
  · rename_i us hus
    injection h with h
    exact ⟨us, hus, h.symm⟩

lemma lookupCol_mem_colNames (data : Table) (c : String) (vs : List Value)
    (h : lookupCol data c = some vs) : c ∈ colNames data := by
  induction data with
  | nil => cases h
  | cons p rest ih =>
    obtain ⟨c0, vs0⟩ := p
    rw [lookupCol] at h
    by_cases hc : c0 = c
    · rw [hc]
      exact List.mem_cons_self _ _
    · rw [if_neg hc] at h
      exact List.mem_cons_of_mem _ (ih h)

/-! ### Claim theorems -/

/-- Claim C1: for a table whose designated columns carry the sentinel 0,
fitting `ImputeCategorical` and transforming the same table leaves no
sentinel entries in those columns, every previously-sentinel entry now
holding the fit-time statistic, which is a most frequent non-sentinel value
of the column. -/
theorem spec_c1_imputer_removes_sentinels
    (cols : List String) (T out : Table) (imp : ImputeCategorical)
    (c : String) (vs : List Value)
    (hnd : cols.Nodup)
    (hfit : imputeFit (some cols) T none = some imp)
    (htr : imputeTransform imp T = some out)
    (hc : c ∈ cols) (hv : lookupCol T c = some vs) :
    ∃ w, columnStatistic vs = some w ∧
      lookupCol out c = some (vs.map fun v => if v = Value.int 0 then w else v) ∧
      Value.int 0 ∉ (vs.map fun v => if v = Value.int 0 then w else v) ∧
      w ∈ vs ∧ w ≠ Value.int 0 ∧
      (∀ u ∈ vs, u ≠ Value.int 0 →
        cnt u (vs.filter fun v => v ≠ Value.int 0) ≤
          cnt w (vs.filter fun v => v ≠ Value.int 0)) := by
  obtain ⟨hcols, hsts⟩ := imputeFit_some cols T none imp hfit
  obtain ⟨hint, hmem⟩ := fitStatistics_mem cols T c vs imp.statistics hsts hc hv
  obtain ⟨us, hus, hout⟩ := imputeTransform_some imp T out htr
  obtain ⟨vs', w, hl', _hint', hstw, hmemus⟩ :=
    imputeUpdates_mem imp.statistics T c (columnStatistic vs) us hus hmem
  have hvv : vs' = vs := by
    rw [hv] at hl'
    injection hl' with h
    exact h.symm
  subst hvv
  have hkeys : us.map Prod.fst = cols := by
    rw [imputeUpdates_keys imp.statistics T us hus,
      fitStatistics_keys cols T imp.statistics hsts]
  have hndus : (us.map Prod.fst).Nodup := by
    rw [hkeys]
    exact hnd
  obtain ⟨hwin, hw0, hmax⟩ := columnStatistic_spec vs' w hstw
  refine ⟨w, hstw, ?_, ?_, hwin, hw0, hmax⟩
  · rw [hout]
    exact lookupCol_applyUpdates_mem T us c _ hndus hmemus
  · intro hzero
    obtain ⟨u, hu, hequ⟩ := List.mem_map.mp hzero
    by_cases hu0 : u = Value.int 0
    · rw [if_pos hu0] at hequ
      exact hw0 hequ
    · rw [if_neg hu0] at hequ
      exact hu0 hequ

/-- Witness for C1 at a concrete table: column `workclass` holds
`[0, 5, 5]`; the fitted statistic is 5 and the transformed column is
`[5, 5, 5]` with no sentinel left. -/
theorem spec_c1_imputer_removes_sentinels_witness :
    ∃ w, columnStatistic [Value.int 0, Value.int 5, Value.int 5] = some w ∧
      lookupCol [("workclass", [Value.int 5, Value.int 5, Value.int 5])] "workclass" =
        some ([Value.int 0, Value.int 5, Value.int 5].map
          fun v => if v = Value.int 0 then w else v) ∧
      Value.int 0 ∉ ([Value.int 0, Value.int 5, Value.int 5].map
          fun v => if v = Value.int 0 then w else v) ∧
      w ∈ [Value.int 0, Value.int 5, Value.int 5] ∧ w ≠ Value.int 0 ∧
      (∀ u ∈ [Value.int 0, Value.int 5, Value.int 5], u ≠ Value.int 0 →
        cnt u ([Value.int 0, Value.int 5, Value.int 5].filter
            fun v => v ≠ Value.int 0) ≤
          cnt w ([Value.int 0, Value.int 5, Value.int 5].filter
            fun v => v ≠ Value.int 0)) :=
  spec_c1_imputer_removes_sentinels ["workclass"]
    [("workclass", [Value.int 0, Value.int 5, Value.int 5])]
    [("workclass", [Value.int 5, Value.int 5, Value.int 5])]
    ⟨["workclass"], [("workclass", some (Value.int 5))]⟩
    "workclass" [Value.int 0, Value.int 5, Value.int 5]
    (by decide) (by rfl) (by rfl) (by decide) (by rfl)

/-- Claim C2: after fitting the encoder on a table and transforming that
same table, each fitted column holds codes with as many distinct values as
the raw column had. -/
theorem spec_c2_encoder_code_cardinality
    (cols : List String) (T U : Table) (enc : EncodeCategorical)
    (c : String) (vs ws : List Value)
    (hnd : cols.Nodup)
    (hfit : encodeFit (some cols) T none = some enc)
    (htr : encodeTransform enc T = some U)
    (hc : c ∈ cols) (hv : lookupCol T c = some vs)
    (hw : lookupCol U c = some ws) :
    ws.dedup.length = vs.dedup.length := by
  obtain ⟨hcols, hes⟩ := encodeFit_some cols T none enc hfit
  have hmem : (c, labelFit vs) ∈ enc.encoders :=
    fitEncoders_mem cols T c vs enc.encoders hes hc hv
  obtain ⟨us, hus, hU⟩ := encodeTransform_some enc T U htr
  obtain ⟨vs', ws', hl', ht', hmemus⟩ :=
    encodeUpdates_mem enc.encoders T c (labelFit vs) us hus hmem
  have hvv : vs' = vs := by
    rw [hv] at hl'
    injection hl' with h
    exact h.symm
  subst hvv
  have hkeys : us.map Prod.fst = cols := by
    rw [encodeUpdates_keys enc.encoders T us hus,
      fitEncoders_keys cols T enc.encoders hes]
  have hndus : (us.map Prod.fst).Nodup := by
    rw [hkeys]
    exact hnd
  have hlook : lookupCol U c = some ws' := by
    rw [hU]
    exact lookupCol_applyUpdates_mem T us c _ hndus hmemus
  have hww : ws = ws' := by
    rw [hlook] at hw
    injection hw with h
    exact h.symm
  subst hww
  obtain ⟨hmap, hin⟩ := transformColumn_eq_some (labelFit vs') vs' ws ht'
  rw [hmap]
  apply dedup_length_map_inj
  intro a ha b hb hfab
  injection hfab with hfab
  exact idxOf_inj (labelFit vs') a b (hin a ha) (hin b hb)
    (Int.ofNat.inj hfab)

/-- Witness for C2 at a concrete table: the column `[" a", " b", " a"]`
encodes to `[0, 1, 0]`; both have two distinct values. -/
theorem spec_c2_encoder_code_cardinality_witness :
    ([Value.int 0, Value.int 1, Value.int 0].dedup).length =
      ([Value.str " a", Value.str " b", Value.str " a"].dedup).length :=
  spec_c2_encoder_code_cardinality ["c"]
    [("c", [Value.str " a", Value.str " b", Value.str " a"])]
    [("c", [Value.int 0, Value.int 1, Value.int 0])]
    ⟨["c"], [("c", [Value.str " a", Value.str " b"])]⟩
    "c" [Value.str " a", Value.str " b", Value.str " a"]
    [Value.int 0, Value.int 1, Value.int 0]
    (by decide) (by rfl) (by rfl) (by decide) (by rfl) (by rfl)

/-- A small training table shaped like the census data: a numeric column,
an object column, and the object target column `income` last. -/
def exTrain : Table :=
  [("age", [Value.int 39, Value.int 50]),
   ("workclass", [Value.str " State-gov", Value.str " Private"]),
   ("income", [Value.str " <=50K", Value.str " >50K"])]

/-- Claim C3 counterexample: the metadata built from a training table does
NOT exclude the target column from `feature_names` — the source stores
`list(data.columns)`, so `income` is present (as the last entry). -/
theorem spec_c3_counterexample :
    ∃ m, buildMeta exTrain = some m ∧ "income" ∈ m.feature_names := by
  refine ⟨⟨[Value.str " <=50K", Value.str " >50K"],
    ["age", "workclass", "income"],
    [("workclass", [Value.str " State-gov", Value.str " Private"]),
     ("income", [Value.str " <=50K", Value.str " >50K"])]⟩, by rfl, by decide⟩

/-- Claim C3 as amended: the metadata's feature names are the training
table's column names in order, so they INCLUDE the target column `income`
(last, when `income` is the table's last column); the target class names
are the income values, ordered by first appearance and unique; and the
categorical map sends exactly the object-dtype columns to their observed
distinct values. -/
theorem spec_c3_meta_contents (data : Table) (m : MetaData)
    (incomeVals : List Value)
    (hinc : lookupCol data "income" = some incomeVals)
    (hm : buildMeta data = some m) :
    m.feature_names = colNames data ∧
    "income" ∈ m.feature_names ∧
    ((colNames data).getLast? = some "income" →
      m.feature_names.getLast? = some "income") ∧
    m.target_names = uniqueInOrder incomeVals ∧
    m.target_names.Nodup ∧
    (∀ v, v ∈ m.target_names ↔ v ∈ incomeVals) ∧
    (∀ c dom, (c, dom) ∈ m.categorical_features ↔
      ∃ cvs, (c, cvs) ∈ data ∧ colIsObject cvs = true ∧
        dom = uniqueInOrder cvs) := by
  rw [buildMeta, hinc] at hm
  injection hm with hm
  subst hm
  refine ⟨rfl, lookupCol_mem_colNames data "income" incomeVals hinc,
    fun h => h, rfl, nodup_uniqueInOrder _,
    fun v => mem_uniqueInOrder _ v, fun c dom => ?_⟩
  constructor
  · intro h
    obtain ⟨p, hpfil, heq⟩ := List.mem_map.mp h
    obtain ⟨hpdata, hpobj⟩ := List.mem_filter.mp hpfil
    injection heq with e1 e2
    refine ⟨p.2, ?_, hpobj, e2.symm⟩
    rw [← e1]
    exact hpdata
  · rintro ⟨cvs, hdata, hobj, rfl⟩
    exact List.mem_map.mpr ⟨(c, cvs), List.mem_filter.mpr ⟨hdata, hobj⟩, rfl⟩

/-- Witness for the amended C3 at the concrete table `exTrain`. -/
theorem spec_c3_meta_contents_witness :
    (MetaData.feature_names ⟨[Value.str " <=50K", Value.str " >50K"],
      ["age", "workclass", "income"],
      [("workclass", [Value.str " State-gov", Value.str " Private"]),
       ("income", [Value.str " <=50K", Value.str " >50K"])]⟩ = colNames exTrain) ∧
    "income" ∈ MetaData.feature_names ⟨[Value.str " <=50K", Value.str " >50K"],
      ["age", "workclass", "income"],
      [("workclass", [Value.str " State-gov", Value.str " Private"]),
       ("income", [Value.str " <=50K", Value.str " >50K"])]⟩ ∧
    ((colNames exTrain).getLast? = some "income" →
      (MetaData.feature_names ⟨[Value.str " <=50K", Value.str " >50K"],
        ["age", "workclass", "income"],
        [("workclass", [Value.str " State-gov", Value.str " Private"]),
         ("income", [Value.str " <=50K", Value.str " >50K"])]⟩).getLast? =
        some "income") ∧
    (MetaData.target_names ⟨[Value.str " <=50K", Value.str " >50K"],
      ["age", "workclass", "income"],
      [("workclass", [Value.str " State-gov", Value.str " Private"]),
       ("income", [Value.str " <=50K", Value.str " >50K"])]⟩ =
      uniqueInOrder [Value.str " <=50K", Value.str " >50K"]) ∧
    (MetaData.target_names ⟨[Value.str " <=50K", Value.str " >50K"],
      ["age", "workclass", "income"],
      [("workclass", [Value.str " State-gov", Value.str " Private"]),
       ("income", [Value.str " <=50K", Value.str " >50K"])]⟩).Nodup ∧
    (∀ v, v ∈ MetaData.target_names ⟨[Value.str " <=50K", Value.str " >50K"],
      ["age", "workclass", "income"],
      [("workclass", [Value.str " State-gov", Value.str " Private"]),
       ("income", [Value.str " <=50K", Value.str " >50K"])]⟩ ↔
      v ∈ [Value.str " <=50K", Value.str " >50K"]) ∧
    (∀ c dom, (c, dom) ∈ MetaData.categorical_features
        ⟨[Value.str " <=50K", Value.str " >50K"],
         ["age", "workclass", "income"],
         [("workclass", [Value.str " State-gov", Value.str " Private"]),
          ("income", [Value.str " <=50K", Value.str " >50K"])]⟩ ↔
      ∃ cvs, (c, cvs) ∈ exTrain ∧ colIsObject cvs = true ∧
        dom = uniqueInOrder cvs) :=
  spec_c3_meta_contents exTrain
    ⟨[Value.str " <=50K", Value.str " >50K"],
     ["age", "workclass", "income"],
     [("workclass", [Value.str " State-gov", Value.str " Private"]),
      ("income", [Value.str " <=50K", Value.str " >50K"])]⟩
    [Value.str " <=50K", Value.str " >50K"]
    (by rfl) (by rfl)

/-- Claim C4: loading the serialized artifact of a fitted pipeline yields a
pipeline equal to the original — all stage states and classifier
coefficients survive the round trip — so its predictions on any input table
are identical to the original's. -/
theorem spec_c4_pickle_roundtrip (p : FittedPipeline) (X : Table) :
    load_model (dump_model p) = some p ∧
    (load_model (dump_model p)).map (fun q => censusPredict q X) =
      some (censusPredict p X) := by
  refine ⟨load_model_dump_model p, ?_⟩
  rw [load_model_dump_model p, Option.map_some']

/-- Claim C5: in the census pipeline, the fitted states of the encoder and
imputer stages do not depend on the labels `y` (only the terminal
classifier is fit on `y`), fitting runs fit-then-transform through the two
non-terminal stages in order, and `predict` runs transform-only through the
already-fitted stages before the terminal stage predicts. -/
theorem spec_c5_pipeline_stage_discipline
    (clfFit : Table → List Int → LogisticRegression)
    (catCols impCols : List String) (X Z Z1 Z2 : Table) (y y' : List Int)
    (p p' : FittedPipeline)
    (h : censusFit clfFit catCols impCols X y = some p)
    (h' : censusFit clfFit catCols impCols X y' = some p')
    (hZ1 : encodeTransform p.enc Z = some Z1)
    (hZ2 : imputeTransform p.imp Z1 = some Z2) :
    (p.enc = p'.enc ∧ p.imp = p'.imp) ∧
    encodeFit (some catCols) X none = some p.enc ∧
    (∃ X1 X2, encodeTransform p.enc X = some X1 ∧
      imputeFit (some impCols) X1 none = some p.imp ∧
      imputeTransform p.imp X1 = some X2 ∧ p.clf = clfFit X2 y) ∧
    censusPredict p Z = clfPredictTable p.clf Z2 := by
  rw [censusFit] at h h'
  split at h
  · cases h
  · rename_i enc henc
    split at h
    · cases h
    · rename_i X1 hX1
      split at h
      · cases h
      · rename_i imp himp
        split at h
        · cases h
        · rename_i X2 hX2
          injection h with h
          split at h'
          · cases h'
          · rename_i enc' henc'
            split at h'
            · cases h'
            · rename_i X1' hX1'
              split at h'
              · cases h'
              · rename_i imp' himp'
                split at h'
                · cases h'
                · rename_i X2' hX2'
                  injection h' with h'
                  have hencs : enc = enc' := by
                    have heq : encodeFit (some catCols) X (some y') =
                        encodeFit (some catCols) X (some y) := rfl
                    rw [heq, henc] at henc'
                    injection henc'
                  subst hencs
                  have hX1s : X1 = X1' := by
                    rw [hX1] at hX1'
                    injection hX1'
                  subst hX1s
                  have himps : imp = imp' := by
                    have heq : imputeFit (some impCols) X1 (some y') =
                        imputeFit (some impCols) X1 (some y) := rfl
                    rw [heq, himp] at himp'
                    injection himp'
                  subst himps
                  refine ⟨⟨?_, ?_⟩, ?_, ⟨X1, X2, ?_, ?_, ?_, ?_⟩, ?_⟩
                  · rw [← h, ← h']
                  · rw [← h, ← h']
                  · rw [← h]
                    exact henc
                  · rw [← h]
                    exact hX1
                  · rw [← h]
                    exact himp
                  · rw [← h]
                    exact hX2
                  · rw [← h]
                  · rw [← h] at hZ1 hZ2 ⊢
                    simp only [censusPredict, hZ1, hZ2]

/-- Witness for C5 at a concrete pipeline: one categorical column, two
label vectors, identical non-terminal states either way. -/
theorem spec_c5_pipeline_stage_discipline_witness :
    ((⟨["c"], [("c", [Value.str " a", Value.str " b"])]⟩ : EncodeCategorical) =
        ⟨["c"], [("c", [Value.str " a", Value.str " b"])]⟩ ∧
      (⟨["c"], [("c", some (Value.int 1))]⟩ : ImputeCategorical) =
        ⟨["c"], [("c", some (Value.int 1))]⟩) ∧
    encodeFit (some ["c"]) [("c", [Value.str " a", Value.str " b"])] none =
      some ⟨["c"], [("c", [Value.str " a", Value.str " b"])]⟩ ∧
    (∃ X1 X2, encodeTransform ⟨["c"], [("c", [Value.str " a", Value.str " b"])]⟩
        [("c", [Value.str " a", Value.str " b"])] = some X1 ∧
      imputeFit (some ["c"]) X1 none = some ⟨["c"], [("c", some (Value.int 1))]⟩ ∧
      imputeTransform ⟨["c"], [("c", some (Value.int 1))]⟩ X1 = some X2 ∧
      (⟨[1], 0⟩ : LogisticRegression) = ⟨[1], 0⟩) ∧
    censusPredict ⟨⟨["c"], [("c", [Value.str " a", Value.str " b"])]⟩,
        ⟨["c"], [("c", some (Value.int 1))]⟩, ⟨[1], 0⟩⟩
        [("c", [Value.str " a", Value.str " b"])] =
      clfPredictTable ⟨[1], 0⟩ [("c", [Value.int 1, Value.int 1])] :=
  spec_c5_pipeline_stage_discipline (fun _ _ => ⟨[1], 0⟩) ["c"] ["c"]
    [("c", [Value.str " a", Value.str " b"])]
    [("c", [Value.str " a", Value.str " b"])]
    [("c", [Value.int 0, Value.int 1])]
    [("c", [Value.int 1, Value.int 1])]
    [0, 1] [1, 0]
    ⟨⟨["c"], [("c", [Value.str " a", Value.str " b"])]⟩,
     ⟨["c"], [("c", some (Value.int 1))]⟩, ⟨[1], 0⟩⟩
    ⟨⟨["c"], [("c", [Value.str " a", Value.str " b"])]⟩,
     ⟨["c"], [("c", some (Value.int 1))]⟩, ⟨[1], 0⟩⟩
    (by rfl) (by rfl) (by rfl) (by rfl)

/-- Claim C6: a test-set target value with a trailing period, after
trailing-period stripping, is encoded by the fitted target label encoder to
the same integer code as the training-set value without the period. -/
theorem spec_c6_test_target_period (targets : List Value) (s : String)
    (hdot : s.data.getLast? ≠ some '.') :
    labelTransform (labelFit targets) (Value.str (rstripDots (s ++ "."))) =
      labelTransform (labelFit targets) (Value.str s) ∧
    (Value.str s ∈ targets → ∃ k,
      labelTransform (labelFit targets) (Value.str (rstripDots (s ++ "."))) =
          some k ∧
        labelTransform (labelFit targets) (Value.str s) = some k) := by
  rw [rstripDots_no_trailing s hdot]
  refine ⟨rfl, fun hmem => ?_⟩
  have hcl : Value.str s ∈ labelFit targets := (mem_labelFit _ _).mpr hmem
  exact ⟨idxOf (labelFit targets) (Value.str s),
    by rw [labelTransform, if_pos hcl],
    by rw [labelTransform, if_pos hcl]⟩

/-- Witness for C6: the test value ">50K." and the training value ">50K"
get the same code under the encoder fitted on the training targets. -/
theorem spec_c6_test_target_period_witness :
    (labelTransform (labelFit [Value.str ">50K", Value.str "<=50K"])
        (Value.str (rstripDots (">50K" ++ "."))) =
      labelTransform (labelFit [Value.str ">50K", Value.str "<=50K"])
        (Value.str ">50K")) ∧
    (Value.str ">50K" ∈ [Value.str ">50K", Value.str "<=50K"] → ∃ k,
      labelTransform (labelFit [Value.str ">50K", Value.str "<=50K"])
          (Value.str (rstripDots (">50K" ++ "."))) = some k ∧
        labelTransform (labelFit [Value.str ">50K", Value.str "<=50K"])
          (Value.str ">50K") = some k) :=
  spec_c6_test_target_period [Value.str ">50K", Value.str "<=50K"] ">50K"
    (by decide)

/-- Claim C7: a fitted encoder's transform produces a new table in which
every column outside the fitted column set is exactly the input column,
and every fitted column is replaced by the integer codes of its values
(the input table itself is never mutated — the model is a pure function of
it). -/
theorem spec_c7_transform_frame
    (cols : List String) (X data out : Table) (enc : EncodeCategorical)
    (hnd : cols.Nodup)
    (hfit : encodeFit (some cols) X none = some enc)
    (htr : encodeTransform enc data = some out) :
    (∀ c, c ∉ cols → lookupCol out c = lookupCol data c) ∧
    (∀ c, c ∈ cols → ∃ classes vs,
      (c, classes) ∈ enc.encoders ∧ lookupCol data c = some vs ∧
      lookupCol out c = some (vs.map fun v => Value.int (idxOf classes v)) ∧
      ∀ v ∈ vs, v ∈ classes) := by
  obtain ⟨hcols, hes⟩ := encodeFit_some cols X none enc hfit
  obtain ⟨us, hus, hout⟩ := encodeTransform_some enc data out htr
  have hkeys : us.map Prod.fst = cols := by
    rw [encodeUpdates_keys enc.encoders data us hus,
      fitEncoders_keys cols X enc.encoders hes]
  constructor
  · intro c hc
    rw [hout]
    apply lookupCol_applyUpdates_notMem
    rw [hkeys]
    exact hc
  · intro c hc
    have hec : c ∈ enc.encoders.map Prod.fst := by
      rw [fitEncoders_keys cols X enc.encoders hes]
      exact hc
    obtain ⟨p, hp, hp1⟩ := List.mem_map.mp hec
    have hpmem : (c, p.2) ∈ enc.encoders := by
      rw [← hp1]
      exact hp
    obtain ⟨vs, ws, hl, ht, hmemus⟩ :=
      encodeUpdates_mem enc.encoders data c p.2 us hus hpmem
    obtain ⟨hmap, hin⟩ := transformColumn_eq_some p.2 vs ws ht
    refine ⟨p.2, vs, hpmem, hl, ?_, hin⟩
    rw [hout, lookupCol_applyUpdates_mem data us c ws (by rw [hkeys]; exact hnd)
      hmemus, hmap]

/-- Witness for C7: the encoder fitted on column `c` of one table, applied
to another table having columns `c` and `d`, codes `c` and leaves `d`
untouched. -/
theorem spec_c7_transform_frame_witness :
    (∀ c, c ∉ ["c"] →
      lookupCol [("c", [Value.int 1]), ("d", [Value.int 7])] c =
        lookupCol [("c", [Value.str " b"]), ("d", [Value.int 7])] c) ∧
    (∀ c, c ∈ ["c"] → ∃ classes vs,
      (c, classes) ∈ EncodeCategorical.encoders
          ⟨["c"], [("c", [Value.str " a", Value.str " b"])]⟩ ∧
      lookupCol [("c", [Value.str " b"]), ("d", [Value.int 7])] c = some vs ∧
      lookupCol [("c", [Value.int 1]), ("d", [Value.int 7])] c =
        some (vs.map fun v => Value.int (idxOf classes v)) ∧
      ∀ v ∈ vs, v ∈ classes) :=
  spec_c7_transform_frame ["c"]
    [("c", [Value.str " a", Value.str " b", Value.str " a"])]
    [("c", [Value.str " b"]), ("d", [Value.int 7])]
    [("c", [Value.int 1]), ("d", [Value.int 7])]
    ⟨["c"], [("c", [Value.str " a", Value.str " b"])]⟩
    (by decide) (by rfl) (by rfl)

/-- Claim C8: applying a fitted encoder's transform to its own output is
invalid input — the output holds integer codes while the fitted classes are
the raw category strings, so the second transform raises instead of
silently coercing; the stage is not idempotent on its own output. -/
theorem spec_c8_retransform_fails
    (cols : List String) (T U : Table) (enc : EncodeCategorical)
    (c : String) (vs : List Value)
    (hnd : cols.Nodup)
    (hfit : encodeFit (some cols) T none = some enc)
    (htr : encodeTransform enc T = some U)
    (hc : c ∈ cols) (hv : lookupCol T c = some vs)
    (hne : vs ≠ []) (hstr : allStr vs = true) :
    encodeTransform enc U = none := by
  obtain ⟨hcols, hes⟩ := encodeFit_some cols T none enc hfit
  have hmem : (c, labelFit vs) ∈ enc.encoders :=
    fitEncoders_mem cols T c vs enc.encoders hes hc hv
  obtain ⟨us, hus, hU⟩ := encodeTransform_some enc T U htr
  obtain ⟨vs', ws', hl', ht', hmemus⟩ :=
    encodeUpdates_mem enc.encoders T c (labelFit vs) us hus hmem
  have hvv : vs' = vs := by
    rw [hv] at hl'
    injection hl' with h
    exact h.symm
  rw [hvv] at ht'
  obtain ⟨hmap, hin⟩ := transformColumn_eq_some (labelFit vs) vs ws' ht'
  have hkeys : us.map Prod.fst = cols := by
    rw [encodeUpdates_keys enc.encoders T us hus,
      fitEncoders_keys cols T enc.encoders hes]
  have hlook : lookupCol U c = some ws' := by
    rw [hU]
    exact lookupCol_applyUpdates_mem T us c _ (by rw [hkeys]; exact hnd) hmemus
  obtain ⟨v0, vrest, hcons⟩ := List.exists_cons_of_ne_nil hne
  subst hcons
  rw [List.map_cons] at hmap
  have hnotin : Value.int (idxOf (labelFit (v0 :: vrest)) v0) ∉
      labelFit (v0 :: vrest) := by
    intro hmm
    obtain ⟨s, hs⟩ :=
      allStr_mem (v0 :: vrest) _ hstr ((mem_labelFit (v0 :: vrest) _).mp hmm)
    cases hs
  have htnone : transformColumn (labelFit (v0 :: vrest)) ws' = none := by
    rw [hmap]
    exact transformColumn_cons_none _ _ _ hnotin
  have hnone : encodeUpdates enc.encoders U = none :=
    encodeUpdates_none enc.encoders U c (labelFit (v0 :: vrest)) ws' hmem
      hlook htnone
  rw [encodeTransform, hnone]

/-- Witness for C8: the encoder fitted on `[" a", " b"]` transforms its own
output `[0, 1]` to an error. -/
theorem spec_c8_retransform_fails_witness :
    encodeTransform ⟨["c"], [("c", [Value.str " a", Value.str " b"])]⟩
      [("c", [Value.int 0, Value.int 1])] = none :=
  spec_c8_retransform_fails ["c"]
    [("c", [Value.str " a", Value.str " b"])]
    [("c", [Value.int 0, Value.int 1])]
    ⟨["c"], [("c", [Value.str " a", Value.str " b"])]⟩
    "c" [Value.str " a", Value.str " b"]
    (by decide) (by rfl) (by rfl) (by decide) (by rfl)
    (by decide) (by decide)

/-- Model of the metadata the script builds from the census training data:
the fifteen column names in order (target `income` last), and a categorical
domain for each object-dtype column (domains abbreviated to representative
values, each carrying the leading space the csv parser leaves in place). -/
def censusMeta : MetaData :=
  { target_names := [Value.str " <=50K", Value.str " >50K"]
    feature_names :=
      ["age", "workclass", "fnlwgt", "education", "education-num",
       "marital-status", "occupation", "relationship", "race", "sex",
       "capital-gain", "capital-loss", "hours-per-week", "native-country",
       "income"]
    categorical_features :=
      [("workclass", [Value.str " State-gov", Value.str " Private"]),
       ("education", [Value.str " Bachelors"]),
       ("marital-status", [Value.str " Never-married"]),
       ("occupation", [Value.str " Adm-clerical"]),
       ("relationship", [Value.str " Not-in-family"]),
       ("race", [Value.str " White"]),
       ("sex", [Value.str " Male", Value.str " Female"]),
       ("native-country", [Value.str " United-States"]),
       ("income", [Value.str " <=50K", Value.str " >50K"])] }

/-- Claim C9 counterexample: the interactive loop does NOT prompt only for
non-numeric features — `age` is numeric (it has no categorical domain in
the metadata), yet the program still prompts for it: it consumes the
entered string and stores it, accepting anything.  Only `fnlwgt` is
skipped. -/
theorem spec_c9_counterexample :
    "age" ∈ censusMeta.feature_names.dropLast ∧
    domainOf censusMeta "age" = none ∧
    askColumn censusMeta "age" ["37"] = some (Value.str " 37", []) :=
  ⟨by decide, by rfl, by rfl⟩

/-- Claim C9 as amended: the loop prompts for every feature except
`fnlwgt` (numeric features, having no domain, accept any entry on the
first attempt); an entered value whose space-prefixed form is not in the
feature's domain is rejected and the loop reprompts, failing to terminate
exactly when no acceptable value is ever entered; `fnlwgt` is given the
constant 189778 without consuming input; and the final output is the
decoded class label, one of the target class names. -/
theorem spec_c9_cli_behavior
    (m : MetaData) (mp : Table → Option (List Int)) (ycl : List Value)
    (inputs inputs2 rest : List String) (v : String)
    (valid : Option (List Value)) (out : Value)
    (hask : askLoop valid inputs = some (v, rest))
    (hout : predictCLI mp m ycl inputs2 = some out) :
    (∀ ins, askColumn m "fnlwgt" ins = some (Value.int 189778, ins)) ∧
    (∃ pre s, inputs = pre ++ s :: rest ∧
      (∀ t ∈ pre, acceptable valid t = false) ∧
      acceptable valid s = true ∧ v = " " ++ s) ∧
    (∀ ins, askLoop valid ins = none ↔
      ∀ s ∈ ins, acceptable valid s = false) ∧
    (∀ l s, l ≠ [] → Value.str (" " ++ s) ∉ l →
      acceptable (some l) s = false) ∧
    out ∈ ycl := by
  refine ⟨fun ins => by rw [askColumn, if_pos rfl],
    askLoop_some valid inputs v rest hask,
    fun ins => askLoop_none valid ins,
    fun l s hl hnot => ?_, ?_⟩
  · rw [acceptable]
    cases l with
    | nil => exact absurd rfl hl
    | cons d ds =>
      rw [show (d :: ds).isEmpty = false from rfl, Bool.false_or]
      cases hcv : containsV (d :: ds) (Value.str (" " ++ s)) with
      | false => rfl
      | true => exact absurd ((containsV_iff _ _).mp hcv) hnot
  · rw [predictCLI] at hout
    split at hout
    · cases hout
    · rename_i row rest2 hcol
      split at hout
      · cases hout
      · rename_i yhat hyh
        split at hout
        · cases hout
        · rename_i k hk
          rw [npIndex] at hout
          split at hout
          · exact List.get?_mem hout
          · split at hout
            · exact List.get?_mem hout
            · cases hout

/-- Witness for the amended C9: metadata with features `workclass`,
`fnlwgt`, `income`; entering `bad` is rejected, `Private` accepted; the
output is the decoded label. -/
theorem spec_c9_cli_behavior_witness :
    (∀ ins, askColumn ⟨[Value.str " <=50K", Value.str " >50K"],
        ["workclass", "fnlwgt", "income"],
        [("workclass", [Value.str " Private"])]⟩ "fnlwgt" ins =
      some (Value.int 189778, ins)) ∧
    (∃ pre s, ["bad", "Private"] = pre ++ s :: [] ∧
      (∀ t ∈ pre,
        acceptable (some [Value.str " Private"]) t = false) ∧
      acceptable (some [Value.str " Private"]) s = true ∧
      " Private" = " " ++ s) ∧
    (∀ ins, askLoop (some [Value.str " Private"]) ins = none ↔
      ∀ s ∈ ins, acceptable (some [Value.str " Private"]) s = false) ∧
    (∀ l s, l ≠ [] → Value.str (" " ++ s) ∉ l →
      acceptable (some l) s = false) ∧
    Value.str " <=50K" ∈ [Value.str " <=50K", Value.str " >50K"] :=
  spec_c9_cli_behavior
    ⟨[Value.str " <=50K", Value.str " >50K"],
     ["workclass", "fnlwgt", "income"],
     [("workclass", [Value.str " Private"])]⟩
    (fun _ => some [0])
    [Value.str " <=50K", Value.str " >50K"]
    ["bad", "Private"] ["bad", "Private"] [] " Private"
    (some [Value.str " Private"])
    (Value.str " <=50K")
    (by rfl) (by rfl)

/-- Claim C10: the stored value is the entered string with exactly one
space prepended; validation compares this space-prefixed string with the
domain, so the accepted entries are exactly the domain strings minus their
leading space; and a feature with no domain accepts any entry on the first
attempt. -/
theorem spec_c10_space_prefix_validation
    (l : List Value) (s : String) (inputs rest : List String) (v : String)
    (hl : l ≠ [])
    (hsp : ∀ d ∈ l, ∃ t : String, d = Value.str (" " ++ t))
    (hres : askLoop (some l) inputs = some (v, rest)) :
    (∃ s', v = " " ++ s' ∧ acceptable (some l) s' = true) ∧
    (acceptable (some l) s = true ↔ Value.str (" " ++ s) ∈ l) ∧
    (acceptable (some l) s = true ↔ s ∈ domainInputs l) ∧
    (∀ t rest2, askLoop (none : Option (List Value)) (t :: rest2) =
      some (" " ++ t, rest2)) := by
  have hiff : ∀ u : String,
      acceptable (some l) u = true ↔ Value.str (" " ++ u) ∈ l := by
    intro u
    rw [acceptable]
    cases l with
    | nil => exact absurd rfl hl
    | cons d ds =>
      rw [show (d :: ds).isEmpty = false from rfl, Bool.false_or]
      exact containsV_iff _ _
  obtain ⟨pre, s', h1, h2, h3, h4⟩ := askLoop_some (some l) inputs v rest hres
  refine ⟨⟨s', h4, h3⟩, hiff s, ?_, fun t rest2 => rfl⟩
  rw [hiff s]
  constructor
  · intro hmem
    exact List.mem_filterMap.mpr
      ⟨Value.str (" " ++ s), hmem, stripLeadSpace_space s⟩
  · intro hmem
    obtain ⟨d, hd, hstrip⟩ := List.mem_filterMap.mp hmem
    obtain ⟨t, rfl⟩ := hsp d hd
    rw [stripLeadSpace_space t] at hstrip
    injection hstrip with hst
    rw [← hst]
    exact hd

/-- Witness for C10 at the domain `[" Private"]`: entering `Private` is
accepted, stored as `" Private"`. -/
theorem spec_c10_space_prefix_validation_witness :
    (∃ s', " Private" = " " ++ s' ∧
      acceptable (some [Value.str " Private"]) s' = true) ∧
    (acceptable (some [Value.str " Private"]) "Private" = true ↔
      Value.str (" " ++ "Private") ∈ [Value.str " Private"]) ∧
    (acceptable (some [Value.str " Private"]) "Private" = true ↔
      "Private" ∈ domainInputs [Value.str " Private"]) ∧
    (∀ t rest2, askLoop (none : Option (List Value)) (t :: rest2) =
      some (" " ++ t, rest2)) :=
  spec_c10_space_prefix_validation [Value.str " Private"] "Private"
    ["Private"] [] " Private"
    (by decide)
    (by
      intro d hd
      rw [List.mem_singleton] at hd
      subst hd
      exact ⟨"Private", by decide⟩)
    (by rfl)
